import Mathlib

/-!
Verification development for the JADE HPC submission engine
(`jade/hpc/hpc_submitter.py`, `jade/events.py`).

The Python code is shallowly embedded: classes become structures, methods
become pure functions that take and return explicit state, external
collaborators (the cluster manager, the results aggregator, the wall
clock) become oracle parameters.  Components of the repository that are
referenced from the embedded files but whose definitions are not part of
the provided sources (`jade.enums.Status`, `jade.hpc.common.HpcJobStatus`,
`jade.jobs.job_queue.JobQueue`) are modelled from the specification and
marked as such in their doc comments.
-/

namespace Jade

/-- A flat JSON-encodable value, the payload type of an event's free-form
`data` map (recognized keys carry strings and integers). -/
inductive JValue where
  | str (s : String)
  | num (n : Int)
  | bool (b : Bool)
  | null
deriving DecidableEq, Repr

/-- Modelled from the spec: `jade.hpc.common.HpcJobStatus` is not among the
provided sources.  §3: AsyncBatch state is one of
`{NONE, QUEUED, RUNNING, COMPLETE}`. -/
inductive HpcJobStatus where
  | NONE
  | QUEUED
  | RUNNING
  | COMPLETE
deriving DecidableEq, Repr

/-- The `.value` string label of a status, as carried in
`hpc_job_state_change` events. -/
def HpcJobStatus.value : HpcJobStatus → String
  | .NONE => "none"
  | .QUEUED => "queued"
  | .RUNNING => "running"
  | .COMPLETE => "complete"

/-- Modelled from the spec: `jade.enums.Status` is not among the provided
sources.  §4.2: `submit` returns `{GOOD, ERROR}`. -/
inductive Status where
  | GOOD
  | ERROR
deriving DecidableEq, Repr

/-- Event category and name constants from `jade/events.py`. -/
def EVENT_CATEGORY_HPC : String := "HPC"

def EVENT_NAME_HPC_SUBMIT : String := "hpc_submit"

def EVENT_NAME_HPC_JOB_ASSIGNED : String := "hpc_job_assigned"

def EVENT_NAME_HPC_JOB_STATE_CHANGE : String := "hpc_job_state_change"

/-- `StructuredLogEvent` (`jade/events.py`): the recognized fields plus the
free-form `data` map.  `timestamp` is stored as a `JValue` because the
Python attribute holds whatever value a `timestamp` keyword argument
carried (normally the string `str(datetime.now())`). -/
structure StructuredLogEvent where
  source : String
  category : String
  name : String
  message : String
  timestamp : JValue
  data : List (String × JValue)
deriving DecidableEq, Repr

/-- Association-list lookup, the model of `dict.get` on string keys. -/
def alistGet (l : List (String × JValue)) (k : String) : Option JValue :=
  (l.find? (fun p => p.1 == k)).map (fun p => p.2)

/-- Removing a key from an association list, the model of `dict.pop`. -/
def alistPop (l : List (String × JValue)) (k : String) : List (String × JValue) :=
  l.filter (fun p => !(p.1 == k))

/-- `StructuredLogEvent.__init__`: the four named fields are stored; if the
keyword arguments contain a `timestamp` key it is popped into the
`timestamp` attribute, otherwise the current wall-clock string `now` is
used; the remaining keyword arguments become the `data` map. -/
def mkEvent (now : String) (source category name message : String)
    (kwargs : List (String × JValue)) : StructuredLogEvent :=
  match alistGet kwargs "timestamp" with
  | some ts =>
      { source := source, category := category, name := name, message := message,
        timestamp := ts, data := alistPop kwargs "timestamp" }
  | none =>
      { source := source, category := category, name := name, message := message,
        timestamp := .str now, data := kwargs }

/-- The JSON record written for an event and read back from one line of
the log: `__str__` dumps `self.__dict__` (keys `category`, `data`,
`message`, `name`, `source`, `timestamp`), and `json.loads` on that line
reproduces exactly these fields, ints and strings and the `data` map
intact. -/
structure EventRecord where
  source : String
  category : String
  name : String
  message : String
  timestamp : JValue
  data : List (String × JValue)
deriving DecidableEq, Repr

/-- `str(event)` followed by `json.loads`: the event's `__dict__` written
as one JSON line and parsed back. -/
def StructuredLogEvent.serializeRecord (e : StructuredLogEvent) : EventRecord :=
  { source := e.source, category := e.category, name := e.name,
    message := e.message, timestamp := e.timestamp, data := e.data }

/-- `StructuredLogEvent.deserialize`: rebuilds the event through
`cls(source=record.get("source",""), category=.., name=.., message=..,
timestamp=record.get("timestamp",""), **record["data"])`, i.e. through
`__init__` with the timestamp entry prepended to the data entries as
keyword arguments. -/
def EventRecord.deserialize (now : String) (record : EventRecord) :
    StructuredLogEvent :=
  mkEvent now record.source record.category record.name record.message
    (("timestamp", record.timestamp) :: record.data)

/-- A job as seen by the submitter: a unique name and the set of names of
jobs blocking it (`blocked_by`, mutated in place as dependencies
complete). -/
structure Job where
  name : String
  blocked_by : List String
deriving DecidableEq, Repr

/-- `_BatchJobs.__init__`: an empty job list and an empty name set. -/
structure BatchJobs where
  jobs : List Job
  jobNames : List String
deriving DecidableEq, Repr

/-- `_BatchJobs.append`. -/
def BatchJobs.append (b : BatchJobs) (job : Job) : BatchJobs :=
  { jobs := b.jobs ++ [job], jobNames := b.jobNames ++ [job.name] }

/-- `_BatchJobs.are_blocking_jobs_present`: all blocking jobs are already
members of the batch. -/
def BatchJobs.are_blocking_jobs_present (b : BatchJobs) (blockingJobs : List String) : Bool :=
  blockingJobs.all (fun x => b.jobNames.contains x)

/-- `_BatchJobs.is_job_blocked`. -/
def BatchJobs.is_job_blocked (b : BatchJobs) (job : Job) (tryAddBlockedJobs : Bool) : Bool :=
  if job.blocked_by.isEmpty then false
  else if tryAddBlockedJobs && b.are_blocking_jobs_present job.blocked_by then false
  else true

/-- `_BatchJobs.num_jobs`. -/
def BatchJobs.num_jobs (b : BatchJobs) : Nat :=
  b.jobs.length

/-- Result of one packing round: the batch, the indices of admitted jobs
(`jobs_to_pop`) and the count of considered-but-blocked jobs. -/
structure PackResult where
  batch : BatchJobs
  jobsToPop : List Nat
  numBlocked : Nat
deriving DecidableEq, Repr

/-- The `for i, job in enumerate(jobs)` loop of `HpcSubmitter.run`
(lines 85–92): a blocked job increments `num_blocked`; an admissible job
is appended to the batch and its index recorded, and the loop breaks once
`batch.num_jobs >= per_node_batch_size`. -/
def packLoop (tryAddBlockedJobs : Bool) (perNodeBatchSize : Nat) :
    List Job → Nat → BatchJobs → List Nat → Nat → PackResult
  | [], _, batch, jobsToPop, numBlocked => ⟨batch, jobsToPop, numBlocked⟩
  | job :: rest, i, batch, jobsToPop, numBlocked =>
    if batch.is_job_blocked job tryAddBlockedJobs then
      packLoop tryAddBlockedJobs perNodeBatchSize rest (i + 1) batch jobsToPop (numBlocked + 1)
    else
      let batch' := batch.append job
      let jobsToPop' := jobsToPop ++ [i]
      if perNodeBatchSize ≤ batch'.num_jobs then
        ⟨batch', jobsToPop', numBlocked⟩
      else
        packLoop tryAddBlockedJobs perNodeBatchSize rest (i + 1) batch' jobsToPop' numBlocked

/-- One packing round over the ready list, started from the empty batch as
in `HpcSubmitter.run`. -/
def packRound (tryAddBlockedJobs : Bool) (perNodeBatchSize : Nat) (jobs : List Job) :
    PackResult :=
  packLoop tryAddBlockedJobs perNodeBatchSize jobs 0 ⟨[], []⟩ [] 0

/-- `AsyncHpcSubmitter.__init__`: no job id yet, last status `NONE`, not
pending. -/
structure AsyncHpcSubmitter where
  name : String
  job_id : Option String
  last_status : HpcJobStatus
  is_pending : Bool
deriving DecidableEq, Repr

/-- A freshly constructed `AsyncHpcSubmitter`. -/
def mkAsyncHpcSubmitter (name : String) : AsyncHpcSubmitter :=
  { name := name, job_id := none, last_status := .NONE, is_pending := false }

/-- The `hpc_job_assigned` event built in `AsyncHpcSubmitter.run`. -/
def hpcJobAssignedEvent (now source jobId : String) : StructuredLogEvent :=
  mkEvent now source EVENT_CATEGORY_HPC EVENT_NAME_HPC_JOB_ASSIGNED
    "HPC job assigned" [("job_id", .str jobId)]

/-- The `hpc_job_state_change` event built in
`AsyncHpcSubmitter.is_complete`.  `job_id` carries the stored optional id
(`None` serializes to JSON null). -/
def hpcJobStateChangeEvent (now source : String) (jobId : Option String)
    (oldState newState : HpcJobStatus) : StructuredLogEvent :=
  mkEvent now source EVENT_CATEGORY_HPC EVENT_NAME_HPC_JOB_STATE_CHANGE
    "HPC job state change"
    [("job_id", match jobId with | some j => .str j | none => .null),
     ("old_state", .str oldState.value),
     ("new_state", .str newState.value)]

/-- The `hpc_submit` event built in `HpcSubmitter.run`. -/
def hpcSubmitEvent (now source : String) (batchSize numBlocked perNodeBatchSize : Nat) :
    StructuredLogEvent :=
  mkEvent now source EVENT_CATEGORY_HPC EVENT_NAME_HPC_SUBMIT
    "Submitted HPC batch"
    [("batch_size", .num batchSize),
     ("num_blocked", .num numBlocked),
     ("per_node_batch_size", .num perNodeBatchSize)]

/-- `AsyncHpcSubmitter.run`: `self._mgr.submit` is an external call whose
outcome `(job_id, result)` is an oracle argument.  `_is_pending` is set
before the status test; a non-GOOD status raises `ExecutionError` (the
returned flag), leaving `_job_id` unset and emitting nothing; a GOOD
status records the job id and emits one `hpc_job_assigned` event. -/
def AsyncHpcSubmitter.run (s : AsyncHpcSubmitter) (jobId : String) (result : Status)
    (now : String) : AsyncHpcSubmitter × List StructuredLogEvent × Bool :=
  let s1 := { s with is_pending := true }
  if result ≠ Status.GOOD then
    (s1, [], true)
  else
    let s2 := { s1 with job_id := some jobId }
    (s2, [hpcJobAssignedEvent now s2.name jobId], false)

/-- `AsyncHpcSubmitter.is_complete`: `check_status` is an oracle argument.
A status differing from `_last_status` emits one `hpc_job_state_change`
event and records the new status; `COMPLETE` or `NONE` clears
`_is_pending`; the return value is `not self._is_pending`. -/
def AsyncHpcSubmitter.is_complete (s : AsyncHpcSubmitter) (status : HpcJobStatus)
    (now : String) : AsyncHpcSubmitter × List StructuredLogEvent × Bool :=
  let (s1, evs) :=
    if status ≠ s.last_status then
      ({ s with last_status := status },
       [hpcJobStateChangeEvent now s.name s.job_id s.last_status status])
    else (s, [])
  let s2 :=
    if status = HpcJobStatus.COMPLETE ∨ status = HpcJobStatus.NONE then
      { s1 with is_pending := false }
    else s1
  (s2, evs, !s2.is_pending)

/-- `AsyncHpcSubmitter.get_blocking_jobs`: always the empty set. -/
def AsyncHpcSubmitter.get_blocking_jobs (_ : AsyncHpcSubmitter) : List String :=
  []

/-- `AsyncHpcSubmitter.remove_blocking_job`: the body is `assert False`,
so every call raises `AssertionError` (the `error` result) and performs no
state change. -/
def AsyncHpcSubmitter.remove_blocking_job (_ : AsyncHpcSubmitter) (_ : String) :
    Except String Unit :=
  Except.error "AssertionError"

/-- `AsyncHpcSubmitter.__del__` logs a "destructed while pending" warning
exactly when `_is_pending` is still set. -/
def AsyncHpcSubmitter.del_warns (s : AsyncHpcSubmitter) : Bool :=
  s.is_pending

/-- Repeated polling of one submitter: `is_complete` applied to a list of
successive `check_status` readings, concatenating the emitted events. -/
def pollAll (s : AsyncHpcSubmitter) (now : String) :
    List HpcJobStatus → AsyncHpcSubmitter × List StructuredLogEvent
  | [] => (s, [])
  | status :: rest =>
    let (s1, evs, _) := s.is_complete status now
    let (s2, evs') := pollAll s1 now rest
    (s2, evs ++ evs')

/-- `HpcSubmitter._update_completed_jobs`: for every ready job, every
blocking name found in the aggregator's completed set is removed from the
job's `blocked_by` (in-place mutation, modelled as a map). -/
def updateCompletedJobs (completed : List String) (jobs : List Job) : List Job :=
  jobs.map (fun job =>
    { job with blocked_by := job.blocked_by.filter (fun x => !(completed.contains x)) })

/-- Python `list.pop(i)`: removes the element at index `i`. -/
def popAt (l : List Job) (i : Nat) : List Job :=
  l.take i ++ l.drop (i + 1)

/-- `for i in reversed(jobs_to_pop): jobs.pop(i)`: the recorded indices are
popped in descending order (the recorded list is ascending). -/
def popDesc (l : List Job) (idxs : List Nat) : List Job :=
  idxs.foldr (fun i acc => popAt acc i) l

/-- One iteration of the `while jobs:` loop of `HpcSubmitter.run` at the
ready-list level, in a round with no in-flight batches (so
`queue.process_queue()` has no effect): refresh the completed set from the
aggregator oracle, pack one batch, and if it is non-empty submit it (one
`hpc_submit` event) and pop the taken indices. Returns the new ready list
and the submitted batch, if any. -/
def hpcRunRound (completed : List String) (tryAddBlockedJobs : Bool)
    (perNodeBatchSize : Nat) (jobs : List Job) : List Job × Option (List Job) :=
  let jobs1 := updateCompletedJobs completed jobs
  let r := packRound tryAddBlockedJobs perNodeBatchSize jobs1
  if 0 < r.batch.num_jobs then
    (popDesc jobs1 r.jobsToPop, some r.batch.jobs)
  else
    (jobs1, none)

/-- The batch list contributed by one round: one batch when one was
submitted, none otherwise. -/
def optBatch : Option (List Job) → List (List Job)
  | some batch => [batch]
  | none => []

/-- `fuel` iterations of the `while jobs:` loop (the loop exits as soon as
the ready list is empty; `completedAt r` is the aggregator's completed set
observed in round `r`).  Returns the remaining ready list and the batches
submitted, one per `hpc_submit` event. -/
def hpcRunRounds (completedAt : Nat → List String) (tryAddBlockedJobs : Bool)
    (perNodeBatchSize : Nat) : Nat → Nat → List Job → List Job × List (List Job)
  | 0, _, jobs => (jobs, [])
  | fuel + 1, round, jobs =>
    if jobs = [] then (jobs, [])
    else
      let rnd := hpcRunRound (completedAt round) tryAddBlockedJobs perNodeBatchSize jobs
      let rest := hpcRunRounds completedAt tryAddBlockedJobs perNodeBatchSize
        fuel (round + 1) rnd.1
      (rest.1, optBatch rnd.2 ++ rest.2)

/-- The submission sequence of `HpcSubmitter.run` lines 94–118 for one
non-empty batch: `queue.submit(async_submitter)` starts the batch — the
`JobQueue` sources are not provided; modelled from the spec, §4.6:
"`submit(async_batch)`: if `len(in_flight) < queue_depth`, start the batch
(invoke its `run()`, which calls ClusterManager.submit)" — so
`AsyncHpcSubmitter.run` executes (possibly emitting `hpc_job_assigned`)
before `log_event` emits the `hpc_submit` event; an exception raised by
`run` propagates, skipping the `hpc_submit` event. -/
def submitRound (submitterName : String) (s : AsyncHpcSubmitter) (jobId : String)
    (result : Status) (batchSize numBlocked perNodeBatchSize : Nat) (now : String) :
    AsyncHpcSubmitter × List StructuredLogEvent × Bool :=
  let (s1, evs, raised) := s.run jobId result now
  if raised then
    (s1, evs, true)
  else
    (s1, evs ++ [hpcSubmitEvent now submitterName batchSize numBlocked perNodeBatchSize], false)

/-- All events the log holds for one batch, in emission (= timestamp)
order: the submission round, then the polling rounds (`is_complete` is
invoked from `queue.process_queue()` / `queue.wait()` strictly after the
submission round).  When the submission raised, no polling happens. -/
def batchLifecycleEvents (submitterName : String) (s : AsyncHpcSubmitter)
    (jobId : String) (result : Status) (batchSize numBlocked perNodeBatchSize : Nat)
    (statuses : List HpcJobStatus) (now : String) : List StructuredLogEvent :=
  let (s1, evs, raised) :=
    submitRound submitterName s jobId result batchSize numBlocked perNodeBatchSize now
  if raised then evs
  else evs ++ (pollAll s1 now statuses).2

/-! ### Helper lemmas about `AsyncHpcSubmitter` -/

/-- The status labels distinguish the statuses. -/
theorem HpcJobStatus.value_injective :
    ∀ a b : HpcJobStatus, a.value = b.value → a = b := by
  intro a b
  cases a <;> cases b <;> intro h <;> first
    | rfl
    | exact absurd h (by decide)

/-- The state component of `is_complete`: the new status is recorded and
`_is_pending` is cleared exactly on a terminal reading. -/
theorem is_complete_state (s : AsyncHpcSubmitter) (st : HpcJobStatus) (now : String) :
    (s.is_complete st now).1 =
      { s with last_status := st,
               is_pending := if st = HpcJobStatus.COMPLETE ∨ st = HpcJobStatus.NONE
                             then false else s.is_pending } := by
  cases hs : s.last_status <;> cases st <;>
    simp [AsyncHpcSubmitter.is_complete, hs] <;>
    rw [← hs]

/-- The events component of `is_complete`: one state-change event exactly
when the status differs from the last observed one. -/
theorem is_complete_events (s : AsyncHpcSubmitter) (st : HpcJobStatus) (now : String) :
    (s.is_complete st now).2.1 =
      if st = s.last_status then []
      else [hpcJobStateChangeEvent now s.name s.job_id s.last_status st] := by
  by_cases h : st = s.last_status <;>
    simp [AsyncHpcSubmitter.is_complete, h]

/-- Unfolding one polling step. -/
theorem pollAll_cons (s : AsyncHpcSubmitter) (now : String) (st : HpcJobStatus)
    (rest : List HpcJobStatus) :
    pollAll s now (st :: rest) =
      ((pollAll (s.is_complete st now).1 now rest).1,
       (s.is_complete st now).2.1 ++ (pollAll (s.is_complete st now).1 now rest).2) :=
  rfl

/-- The `new_state` entry carried by a state-change event. -/
theorem stateChange_newState (now source : String) (jobId : Option String)
    (oldState newState : HpcJobStatus) :
    alistGet (hpcJobStateChangeEvent now source jobId oldState newState).data "new_state" =
      some (JValue.str newState.value) := by
  cases jobId <;> rfl

/-- The `new_state` values emitted by successive polls never repeat
consecutively, and the first one differs from the submitter's current
`_last_status` label. -/
theorem pollAll_newStates_chain (now : String) :
    ∀ (statuses : List HpcJobStatus) (s : AsyncHpcSubmitter),
      List.Chain' (fun a b => a ≠ b)
        ((pollAll s now statuses).2.map (fun e => alistGet e.data "new_state")) ∧
      ∀ v, ((pollAll s now statuses).2.map
              (fun e => alistGet e.data "new_state")).head? = some v →
        v ≠ some (JValue.str s.last_status.value) := by
  intro statuses
  induction statuses with
  | nil =>
      intro s
      refine ⟨List.chain'_nil, ?_⟩
      intro v h
      simp [pollAll] at h
  | cons st rest ih =>
      intro s
      have hstate := is_complete_state s st now
      have hlast : (s.is_complete st now).1.last_status = st := by rw [hstate]
      obtain ⟨ihChain, ihHead⟩ := ih (s.is_complete st now).1
      rw [hlast] at ihHead
      by_cases h : st = s.last_status
      · rw [pollAll_cons, is_complete_events, if_pos h]
        simp only [List.nil_append]
        refine ⟨ihChain, ?_⟩
        intro v hv
        rw [← h]
        exact ihHead v hv
      · rw [pollAll_cons, is_complete_events, if_neg h]
        simp only [List.singleton_append, List.map_cons, stateChange_newState]
        constructor
        · rw [List.chain'_cons']
          refine ⟨?_, ihChain⟩
          intro y hy
          exact fun heq => ihHead y (Option.mem_def.mp hy) heq.symm
        · intro v hv
          simp only [List.head?_cons, Option.some_inj] at hv
          subst hv
          intro heq
          simp only [Option.some_inj, JValue.str.injEq] at heq
          exact h (HpcJobStatus.value_injective st s.last_status heq)

/-! ### Claim theorems about `AsyncHpcSubmitter` -/

/-- C5: `AsyncHpcSubmitter.run` raises `ExecutionError` (third component
`true`) if and only if `ClusterManager.submit` returned a non-GOOD status;
on GOOD it records the returned `job_id` and emits exactly one
`hpc_job_assigned` event carrying that id; on non-GOOD no
`hpc_job_assigned` event is emitted.  `Status` has exactly the two values
GOOD and ERROR, so the two equations decide every case. -/
theorem async_run_contract (s : AsyncHpcSubmitter) (jobId now : String) :
    s.run jobId Status.GOOD now =
      ({ s with is_pending := true, job_id := some jobId },
        [hpcJobAssignedEvent now s.name jobId], false) ∧
    s.run jobId Status.ERROR now = ({ s with is_pending := true }, [], true) := by
  constructor <;> rfl

/-- C6: each `is_complete` call emits one `hpc_job_state_change` event iff
the polled status differs from `_last_status`, then records the new
status; `_is_pending` is cleared exactly on a terminal COMPLETE/NONE
reading (and the call returns `not is_pending`); consequently the
`new_state` values of the state-change events emitted across any sequence
of polls never repeat consecutively. -/
theorem is_complete_contract (s : AsyncHpcSubmitter) (status : HpcJobStatus)
    (now : String) (statuses : List HpcJobStatus) :
    ((s.is_complete status now).2.1 =
        if status = s.last_status then []
        else [hpcJobStateChangeEvent now s.name s.job_id s.last_status status]) ∧
    (s.is_complete status now).1.last_status = status ∧
    ((s.is_complete status now).1.is_pending =
        if status = HpcJobStatus.COMPLETE ∨ status = HpcJobStatus.NONE then false
        else s.is_pending) ∧
    (s.is_complete status now).2.2 = !(s.is_complete status now).1.is_pending ∧
    List.Chain' (fun a b => a ≠ b)
      ((pollAll s now statuses).2.map (fun e => alistGet e.data "new_state")) := by
  refine ⟨is_complete_events s status now, ?_, ?_, rfl,
    (pollAll_newStates_chain now statuses s).1⟩
  · rw [is_complete_state]
  · rw [is_complete_state]

/-- C9 counterexample: the claim states that `remove_blocking_job` returns
without error, but its body is `assert False`, so the call never returns
normally. -/
theorem remove_blocking_job_not_ok :
    (mkAsyncHpcSubmitter "batch1").remove_blocking_job "job1" ≠ Except.ok () :=
  fun h => Except.noConfusion h

/-- C9 amended: `get_blocking_jobs` returns the empty set for every
submitter and argument, but `remove_blocking_job` is not a no-op: every
call raises `AssertionError` (while changing no state — the submitter
value is untouched). -/
theorem blocking_interface_contract (s : AsyncHpcSubmitter) (name : String) :
    s.get_blocking_jobs = [] ∧
    s.remove_blocking_job name = Except.error "AssertionError" :=
  ⟨rfl, rfl⟩

/-- C10: on a non-GOOD submit status, `AsyncHpcSubmitter.run` raises
`ExecutionError` after having set `_is_pending = True`, leaving `_job_id`
unset and emitting nothing; the failed batch still reports itself pending,
so its destructor logs the "destructed while pending" warning. -/
theorem async_run_failure_state (name jobId now : String) :
    ((mkAsyncHpcSubmitter name).run jobId Status.ERROR now).2.2 = true ∧
    ((mkAsyncHpcSubmitter name).run jobId Status.ERROR now).1.is_pending = true ∧
    ((mkAsyncHpcSubmitter name).run jobId Status.ERROR now).1.job_id = none ∧
    ((mkAsyncHpcSubmitter name).run jobId Status.ERROR now).2.1 = [] ∧
    ((mkAsyncHpcSubmitter name).run jobId Status.ERROR now).1.del_warns = true :=
  ⟨rfl, rfl, rfl, rfl, rfl⟩

/-! ### C8: event round-trip -/

/-- Popping a key that is absent from a map leaves the map unchanged. -/
theorem alistPop_of_get_none (l : List (String × JValue)) (k : String)
    (h : alistGet l k = none) : alistPop l k = l := by
  unfold alistGet at h
  rw [Option.map_eq_none'] at h
  rw [List.find?_eq_none] at h
  unfold alistPop
  refine List.filter_eq_self.mpr ?_
  intro a ha
  simpa using h a ha

/-- C8: serializing a `StructuredLogEvent` to one JSON log line and
deserializing that line yields an event equal to the original on all
recognized fields and with the same free-form `data` map (unknown keys
round-trip untouched).  The hypothesis is the constructor invariant that
the `data` map never holds a `timestamp` key (`__init__` pops it). -/
theorem event_serialize_roundtrip (e : StructuredLogEvent) (now : String)
    (h : alistGet e.data "timestamp" = none) :
    EventRecord.deserialize now e.serializeRecord = e := by
  unfold EventRecord.deserialize StructuredLogEvent.serializeRecord mkEvent
  have hget : alistGet (("timestamp", e.timestamp) :: e.data) "timestamp" =
      some e.timestamp := by
    unfold alistGet
    rw [List.find?_cons_of_pos]
    · rfl
    · simp
  rw [hget]
  have hpop : alistPop (("timestamp", e.timestamp) :: e.data) "timestamp" = e.data := by
    unfold alistPop
    rw [List.filter_cons_of_neg]
    · exact alistPop_of_get_none e.data "timestamp" h
    · simp
  rw [hpop]

/-- A concrete event whose `data` map holds one unrecognized key. -/
def sampleEvent : StructuredLogEvent :=
  { source := "submitter", category := EVENT_CATEGORY_HPC,
    name := EVENT_NAME_HPC_SUBMIT, message := "Submitted HPC batch",
    timestamp := .str "2020-01-01 00:00:00",
    data := [("custom_key", .str "custom_value"), ("batch_size", .num 3)] }

/-- C8 witness: the round-trip theorem applied to a concrete event. -/
theorem event_serialize_roundtrip_witness :
    alistGet sampleEvent.data "timestamp" = none ∧
    EventRecord.deserialize "now" sampleEvent.serializeRecord = sampleEvent :=
  ⟨rfl, event_serialize_roundtrip sampleEvent "now" rfl⟩

/-! ### C1: admission decisions of one packing round -/

/-- One admission decision of the packing loop: the candidate job, the
batch contents at the moment the candidate was considered, and whether it
was admitted. -/
structure PackDecision where
  job : Job
  batchBefore : List Job
  admitted : Bool
deriving DecidableEq, Repr

/-- The packing loop instrumented with the decision it takes for every
candidate it considers (jobs after the size-bound break are never
considered and get no decision). -/
def packLoopT (tryAddBlockedJobs : Bool) (perNodeBatchSize : Nat) :
    List Job → Nat → BatchJobs → List Nat → Nat → List PackDecision →
      PackResult × List PackDecision
  | [], _, batch, jobsToPop, numBlocked, ds => (⟨batch, jobsToPop, numBlocked⟩, ds)
  | job :: rest, i, batch, jobsToPop, numBlocked, ds =>
    if batch.is_job_blocked job tryAddBlockedJobs then
      packLoopT tryAddBlockedJobs perNodeBatchSize rest (i + 1) batch jobsToPop
        (numBlocked + 1) (ds ++ [⟨job, batch.jobs, false⟩])
    else
      let batch' := batch.append job
      let jobsToPop' := jobsToPop ++ [i]
      if perNodeBatchSize ≤ batch'.num_jobs then
        (⟨batch', jobsToPop', numBlocked⟩, ds ++ [⟨job, batch.jobs, true⟩])
      else
        packLoopT tryAddBlockedJobs perNodeBatchSize rest (i + 1) batch' jobsToPop'
          numBlocked (ds ++ [⟨job, batch.jobs, true⟩])

/-- One instrumented packing round. -/
def packRoundT (tryAddBlockedJobs : Bool) (perNodeBatchSize : Nat) (jobs : List Job) :
    PackResult × List PackDecision :=
  packLoopT tryAddBlockedJobs perNodeBatchSize jobs 0 ⟨[], []⟩ [] 0 []

/-- The instrumentation does not change the packing result. -/
theorem packLoopT_fst (tryAddBlockedJobs : Bool) (perNodeBatchSize : Nat) :
    ∀ (jobs : List Job) (i : Nat) (batch : BatchJobs) (jobsToPop : List Nat)
      (numBlocked : Nat) (ds : List PackDecision),
      (packLoopT tryAddBlockedJobs perNodeBatchSize jobs i batch jobsToPop
        numBlocked ds).1 =
        packLoop tryAddBlockedJobs perNodeBatchSize jobs i batch jobsToPop numBlocked := by
  intro jobs
  induction jobs with
  | nil => intro i batch jobsToPop numBlocked ds; rfl
  | cons job rest ih =>
      intro i batch jobsToPop numBlocked ds
      rw [packLoopT, packLoop]
      by_cases hb : batch.is_job_blocked job tryAddBlockedJobs
      · rw [if_pos hb, if_pos hb, ih]
      · rw [if_neg hb, if_neg hb]
        by_cases hfull : perNodeBatchSize ≤ (batch.append job).num_jobs
        · rw [if_pos hfull, if_pos hfull]
        · rw [if_neg hfull, if_neg hfull, ih]

/-- `is_job_blocked` returns `false` exactly when the job's remaining
`blocked_by` is empty, or `try_add_blocked_jobs` is set and every
remaining blocker is already a member of the batch. -/
theorem is_job_blocked_false_iff (b : BatchJobs) (job : Job) (tryAdd : Bool) :
    b.is_job_blocked job tryAdd = false ↔
      (job.blocked_by = [] ∨
        (tryAdd = true ∧ ∀ x ∈ job.blocked_by, x ∈ b.jobNames)) := by
  unfold BatchJobs.is_job_blocked BatchJobs.are_blocking_jobs_present
  by_cases h : job.blocked_by.isEmpty
  · simp [h, List.isEmpty_iff.mp h]
  · have hne : ¬ job.blocked_by = [] := by
      intro hnil
      rw [hnil] at h
      exact h rfl
    simp [h, hne, List.all_eq_true]

/-- Every decision the instrumented loop records characterizes admission:
a considered candidate is admitted exactly when its remaining blockers are
empty, or `try_add_blocked_jobs` is set and all its remaining blockers are
names of jobs already in the batch. -/
theorem packLoopT_decisions (tryAdd : Bool) (perNode : Nat) :
    ∀ (jobs : List Job) (i : Nat) (batch : BatchJobs) (jobsToPop : List Nat)
      (numBlocked : Nat) (ds : List PackDecision),
      batch.jobNames = batch.jobs.map Job.name →
      ∀ d ∈ (packLoopT tryAdd perNode jobs i batch jobsToPop numBlocked ds).2,
        d ∈ ds ∨
          (d.admitted = true ↔
            d.job.blocked_by = [] ∨
              (tryAdd = true ∧
                ∀ x ∈ d.job.blocked_by, x ∈ d.batchBefore.map Job.name)) := by
  intro jobs
  induction jobs with
  | nil =>
      intro i batch jobsToPop numBlocked ds hinv d hd
      exact Or.inl hd
  | cons job rest ih =>
      intro i batch jobsToPop numBlocked ds hinv d hd
      rw [packLoopT] at hd
      by_cases hb : batch.is_job_blocked job tryAdd
      · rw [if_pos hb] at hd
        rcases ih (i + 1) batch jobsToPop (numBlocked + 1)
            (ds ++ [⟨job, batch.jobs, false⟩]) hinv d hd with hmem | hiff
        · rcases List.mem_append.mp hmem with h1 | h2
          · exact Or.inl h1
          · right
            have hd0 : d = ⟨job, batch.jobs, false⟩ := List.mem_singleton.mp h2
            subst hd0
            simp only [Bool.false_eq_true, false_iff]
            intro hcond
            have : batch.is_job_blocked job tryAdd = false := by
              rw [is_job_blocked_false_iff, hinv]
              exact hcond
            rw [this] at hb
            exact Bool.false_ne_true hb
        · exact Or.inr hiff
      · rw [if_neg hb] at hd
        have hbf : batch.is_job_blocked job tryAdd = false :=
          Bool.eq_false_iff.mpr hb
        have hcond := (is_job_blocked_false_iff batch job tryAdd).mp hbf
        rw [hinv] at hcond
        by_cases hfull : perNode ≤ (batch.append job).num_jobs
        · rw [if_pos hfull] at hd
          rcases List.mem_append.mp hd with h1 | h2
          · exact Or.inl h1
          · right
            have hd0 : d = ⟨job, batch.jobs, true⟩ := List.mem_singleton.mp h2
            subst hd0
            simpa using hcond
        · rw [if_neg hfull] at hd
          have hinv' : (batch.append job).jobNames =
              (batch.append job).jobs.map Job.name := by
            simp [BatchJobs.append, hinv]
          rcases ih (i + 1) (batch.append job) (jobsToPop ++ [i]) numBlocked
              (ds ++ [⟨job, batch.jobs, true⟩]) hinv' d hd with hmem | hiff
          · rcases List.mem_append.mp hmem with h1 | h2
            · exact Or.inl h1
            · right
              have hd0 : d = ⟨job, batch.jobs, true⟩ := List.mem_singleton.mp h2
              subst hd0
              simpa using hcond
          · exact Or.inr hiff

/-- The final `num_blocked` counter counts exactly the
considered-but-not-admitted decisions. -/
theorem packLoopT_numBlocked (tryAdd : Bool) (perNode : Nat) :
    ∀ (jobs : List Job) (i : Nat) (batch : BatchJobs) (jobsToPop : List Nat)
      (numBlocked : Nat) (ds : List PackDecision),
      (packLoopT tryAdd perNode jobs i batch jobsToPop numBlocked ds).1.numBlocked +
          ds.countP (fun d => !d.admitted) =
        numBlocked +
          (packLoopT tryAdd perNode jobs i batch jobsToPop numBlocked ds).2.countP
            (fun d => !d.admitted) := by
  intro jobs
  induction jobs with
  | nil =>
      intro i batch jobsToPop numBlocked ds
      rfl
  | cons job rest ih =>
      intro i batch jobsToPop numBlocked ds
      rw [packLoopT]
      by_cases hb : batch.is_job_blocked job tryAdd
      · rw [if_pos hb]
        have h := ih (i + 1) batch jobsToPop (numBlocked + 1)
          (ds ++ [⟨job, batch.jobs, false⟩])
        rw [List.countP_append] at h
        simp at h
        omega
      · rw [if_neg hb]
        by_cases hfull : perNode ≤ (batch.append job).num_jobs
        · rw [if_pos hfull]
          simp [List.countP_append]
        · rw [if_neg hfull]
          have h := ih (i + 1) (batch.append job) (jobsToPop ++ [i]) numBlocked
            (ds ++ [⟨job, batch.jobs, true⟩])
          rw [List.countP_append] at h
          simp at h
          omega

/-- C1: in every packing round, every considered candidate is admitted if
and only if its remaining `blocked_by` (after completed names were
removed) is empty, or `try_add_blocked_jobs` is set and every remaining
blocker is already a member of the current batch; and the round's
`num_blocked` counts exactly the considered-but-not-admitted candidates. -/
theorem pack_admission_contract (tryAdd : Bool) (perNode : Nat) (jobs : List Job)
    (d : PackDecision) (hd : d ∈ (packRoundT tryAdd perNode jobs).2) :
    (d.admitted = true ↔
      d.job.blocked_by = [] ∨
        (tryAdd = true ∧ ∀ x ∈ d.job.blocked_by, x ∈ d.batchBefore.map Job.name)) ∧
    (packRound tryAdd perNode jobs).numBlocked =
      (packRoundT tryAdd perNode jobs).2.countP (fun d => !d.admitted) := by
  constructor
  · rcases packLoopT_decisions tryAdd perNode jobs 0 ⟨[], []⟩ [] 0 [] rfl d hd with
      hmem | hiff
    · exact absurd hmem (List.not_mem_nil d)
    · exact hiff
  · have h := packLoopT_numBlocked tryAdd perNode jobs 0 ⟨[], []⟩ [] 0 []
    have h2 := packLoopT_fst tryAdd perNode jobs 0 ⟨[], []⟩ [] 0 []
    rw [packRound, ← h2]
    simpa [packRoundT] using h

/-- A concrete ready list: `"a"` unblocked, `"b"` blocked by `"a"`. -/
def cJobs : List Job := [⟨"a", []⟩, ⟨"b", ["a"]⟩]

/-- C1 witness: the admission contract applied to the first decision of a
concrete packing round. -/
theorem pack_admission_contract_witness :
    (packRound true 8 cJobs).numBlocked =
      (packRoundT true 8 cJobs).2.countP (fun d => !d.admitted) :=
  (pack_admission_contract true 8 cJobs ⟨⟨"a", []⟩, [], true⟩ (by decide)).2

/-! ### C4: batch-size bound -/

/-- The number of jobs in an extended batch. -/
theorem num_jobs_append (b : BatchJobs) (job : Job) :
    (b.append job).num_jobs = b.num_jobs + 1 := by
  simp [BatchJobs.append, BatchJobs.num_jobs]

/-- Size bound of the packing loop: the final batch never grows beyond
`max per_node_batch_size (starting size + 1)`, because the size test runs
after each append. -/
theorem packLoop_size_bound (tryAdd : Bool) (perNode : Nat) :
    ∀ (jobs : List Job) (i : Nat) (batch : BatchJobs) (jobsToPop : List Nat)
      (numBlocked : Nat),
      (packLoop tryAdd perNode jobs i batch jobsToPop numBlocked).batch.num_jobs ≤
        max perNode (batch.num_jobs + 1) := by
  intro jobs
  induction jobs with
  | nil =>
      intro i batch jobsToPop numBlocked
      exact le_trans (Nat.le_succ _) (le_max_right _ _)
  | cons job rest ih =>
      intro i batch jobsToPop numBlocked
      rw [packLoop]
      by_cases hb : batch.is_job_blocked job tryAdd
      · rw [if_pos hb]
        exact ih (i + 1) batch jobsToPop (numBlocked + 1)
      · rw [if_neg hb]
        by_cases hfull : perNode ≤ (batch.append job).num_jobs
        · rw [if_pos hfull]
          simp only [num_jobs_append]
          exact le_max_right perNode (batch.num_jobs + 1)
        · rw [if_neg hfull]
          have h := ih (i + 1) (batch.append job) (jobsToPop ++ [i]) numBlocked
          have hlt : (batch.append job).num_jobs + 1 ≤ perNode :=
            Nat.succ_le_of_lt (lt_of_not_le hfull)
          rw [Nat.max_eq_left hlt] at h
          exact le_trans h (le_max_left _ _)

/-- C4 counterexample: with `per_node_batch_size = 0` and one unblocked
ready job, the packer still admits one job (the size test runs only after
an append), so the returned batch exceeds the bound. -/
theorem pack_batch_size_zero_cex :
    (packRound false 0 [⟨"a", []⟩]).batch.num_jobs = 1 ∧
    ¬ (packRound false 0 [⟨"a", []⟩]).batch.num_jobs ≤ 0 := by
  decide

/-- C4 amended: the packer admits at most `max per_node_batch_size 1`
jobs: for every `per_node_batch_size ≥ 1` the batch never exceeds
`per_node_batch_size` (admission stops as soon as the size reaches the
bound), but with `per_node_batch_size = 0` the first admissible job is
still admitted before the size test, so the batch can hold one job. -/
theorem pack_batch_size_bound (tryAdd : Bool) (perNode : Nat) (jobs : List Job) :
    (packRound tryAdd perNode jobs).batch.num_jobs ≤ max perNode 1 ∧
    (1 ≤ perNode →
      (packRound tryAdd perNode jobs).batch.num_jobs ≤ perNode) := by
  have h := packLoop_size_bound tryAdd perNode jobs 0 ⟨[], []⟩ [] 0
  have h0 : (⟨[], []⟩ : BatchJobs).num_jobs + 1 = 1 := rfl
  rw [packRound] at *
  constructor
  · simpa [h0] using h
  · intro hp
    have : max perNode 1 = perNode := Nat.max_eq_left hp
    rw [h0] at h
    rw [this] at h
    exact h

/-! ### C2: no progress on a dependency cycle -/

/-- When every candidate still has a non-empty `blocked_by`, the packing
loop admits nothing: the batch stays empty, so with `try_add_blocked_jobs`
no blocker can ever be "already in the batch" either. -/
theorem packLoop_all_blocked (tryAdd : Bool) (perNode : Nat) :
    ∀ (jobs : List Job) (i : Nat) (jobsToPop : List Nat) (numBlocked : Nat),
      (∀ j ∈ jobs, j.blocked_by ≠ []) →
      packLoop tryAdd perNode jobs i ⟨[], []⟩ jobsToPop numBlocked =
        ⟨⟨[], []⟩, jobsToPop, numBlocked + jobs.length⟩ := by
  intro jobs
  induction jobs with
  | nil =>
      intro i jobsToPop numBlocked h
      rfl
  | cons job rest ih =>
      intro i jobsToPop numBlocked h
      have hjob : job.blocked_by ≠ [] := h job (List.mem_cons_self job rest)
      have hblocked : (⟨[], []⟩ : BatchJobs).is_job_blocked job tryAdd = true := by
        cases hb : (⟨[], []⟩ : BatchJobs).is_job_blocked job tryAdd with
        | true => rfl
        | false =>
            exfalso
            rcases (is_job_blocked_false_iff ⟨[], []⟩ job tryAdd).mp hb with
              hnil | ⟨_, hall⟩
            · exact hjob hnil
            · rcases List.exists_mem_of_ne_nil job.blocked_by hjob with ⟨x, hx⟩
              exact List.not_mem_nil x (hall x hx)
      rw [packLoop, if_pos hblocked]
      rw [ih (i + 1) jobsToPop (numBlocked + 1)
        (fun j hj => h j (List.mem_cons_of_mem job hj))]
      simp [List.length_cons]
      omega

/-- A round in which every ready job still has an uncompleted blocker
packs nothing: the ready list is only rewritten by the dependency update,
and no batch is submitted (hence no `hpc_submit` event). -/
theorem hpcRunRound_all_blocked (completed : List String) (tryAdd : Bool)
    (perNode : Nat) (jobs : List Job)
    (h : ∀ j ∈ jobs, ∃ b ∈ j.blocked_by, b ∉ completed) :
    hpcRunRound completed tryAdd perNode jobs =
      (updateCompletedJobs completed jobs, none) := by
  have hblocked : ∀ j' ∈ updateCompletedJobs completed jobs, j'.blocked_by ≠ [] := by
    intro j' hj'
    rcases List.mem_map.mp hj' with ⟨j, hj, rfl⟩
    rcases h j hj with ⟨b, hb, hbc⟩
    intro hnil
    have hnil' : j.blocked_by.filter (fun x => !(completed.contains x)) = [] := by
      simpa using hnil
    have hmem : b ∈ j.blocked_by.filter (fun x => !(completed.contains x)) := by
      refine List.mem_filter.mpr ⟨hb, ?_⟩
      simpa using hbc
    rw [hnil'] at hmem
    exact List.not_mem_nil b hmem
  simp only [hpcRunRound, packRound]
  rw [packLoop_all_blocked tryAdd perNode _ 0 [] 0 hblocked]
  simp [BatchJobs.num_jobs]

/-- C2 amended: on a configuration in which every ready job always keeps
an uncompleted blocker (e.g. a dependency cycle) and no batches are in
flight, every iteration of `HpcSubmitter.run`'s `while jobs:` loop leaves
the ready list the same length (so the guard never turns false and the
loop never terminates) and submits no batch, so no `hpc_submit` event is
ever emitted; the loop contains no cycle check, so no
`InvalidConfiguration` is reported by `run`. -/
theorem run_cycle_diverges (completedAt : Nat → List String) (tryAdd : Bool)
    (perNode : Nat) :
    ∀ (fuel round : Nat) (jobs : List Job),
      (∀ j ∈ jobs, ∃ b ∈ j.blocked_by, ∀ r, b ∉ completedAt r) →
      (hpcRunRounds completedAt tryAdd perNode fuel round jobs).1.length =
          jobs.length ∧
      (hpcRunRounds completedAt tryAdd perNode fuel round jobs).2 = [] := by
  intro fuel
  induction fuel with
  | zero =>
      intro round jobs h
      exact ⟨rfl, rfl⟩
  | succ fuel ih =>
      intro round jobs h
      cases jobs with
      | nil => exact ⟨rfl, rfl⟩
      | cons j rest =>
          have hround := hpcRunRound_all_blocked (completedAt round) tryAdd perNode
            (j :: rest)
            (fun x hx => by
              rcases h x hx with ⟨b, hb, hbc⟩
              exact ⟨b, hb, hbc round⟩)
          have h' : ∀ x ∈ updateCompletedJobs (completedAt round) (j :: rest),
              ∃ b ∈ x.blocked_by, ∀ r, b ∉ completedAt r := by
            intro x hx
            rcases List.mem_map.mp hx with ⟨y, hy, rfl⟩
            rcases h y hy with ⟨b, hb, hbc⟩
            refine ⟨b, List.mem_filter.mpr ⟨hb, ?_⟩, hbc⟩
            simpa using hbc round
          obtain ⟨ih1, ih2⟩ := ih (round + 1) _ h'
          have hlen : (updateCompletedJobs (completedAt round) (j :: rest)).length =
              (j :: rest).length := by
            simp [updateCompletedJobs]
          rw [hpcRunRounds, if_neg (by simp), hround]
          constructor
          · simpa [hlen] using ih1
          · simpa [optBatch] using ih2

/-- The two-job dependency cycle of the spec's cycle-detection scenario:
`A blocked_by [B]`, `B blocked_by [A]`. -/
def cycleJobs : List Job := [⟨"A", ["B"]⟩, ⟨"B", ["A"]⟩]

/-- C2 counterexample: on the cycle configuration with no completions and
nothing in flight, five iterations of the run loop leave the non-empty
ready list exactly as it was and submit nothing — the loop neither
terminates nor reports `InvalidConfiguration` nor emits `hpc_submit`,
contradicting the claimed terminating error report. -/
theorem cycle_no_progress_cex :
    (hpcRunRounds (fun _ => []) true 8 5 0 cycleJobs).1 = cycleJobs ∧
    (hpcRunRounds (fun _ => []) true 8 5 0 cycleJobs).2 = [] ∧
    cycleJobs ≠ [] := by
  refine ⟨rfl, rfl, ?_⟩
  simp [cycleJobs]

/-- C2 witness: the divergence theorem applied to the concrete cycle. -/
theorem run_cycle_diverges_witness :
    (hpcRunRounds (fun _ => []) true 8 3 0 cycleJobs).1.length = cycleJobs.length ∧
    (hpcRunRounds (fun _ => []) true 8 3 0 cycleJobs).2 = [] :=
  run_cycle_diverges (fun _ => []) true 8 3 0 cycleJobs (by
    intro j hj
    rcases List.mem_cons.mp hj with rfl | hj2
    · exact ⟨"B", by simp, fun r => List.not_mem_nil "B"⟩
    · rcases List.mem_cons.mp hj2 with rfl | hj3
      · exact ⟨"A", by simp, fun r => List.not_mem_nil "A"⟩
      · exact absurd hj3 (List.not_mem_nil j))

/-! ### C3: per-batch event ordering -/

/-- State-change events carry the state-change event name. -/
theorem stateChange_name (now source : String) (jobId : Option String)
    (oldState newState : HpcJobStatus) :
    (hpcJobStateChangeEvent now source jobId oldState newState).name =
      EVENT_NAME_HPC_JOB_STATE_CHANGE := by
  cases jobId <;> rfl

/-- Every event emitted by polling is an `hpc_job_state_change` event. -/
theorem pollAll_names (now : String) :
    ∀ (statuses : List HpcJobStatus) (s : AsyncHpcSubmitter),
      ∀ e ∈ (pollAll s now statuses).2,
        e.name = EVENT_NAME_HPC_JOB_STATE_CHANGE := by
  intro statuses
  induction statuses with
  | nil =>
      intro s e he
      exact absurd he (List.not_mem_nil e)
  | cons st rest ih =>
      intro s e he
      rw [pollAll_cons] at he
      rcases List.mem_append.mp he with h1 | h2
      · rw [is_complete_events] at h1
        by_cases h : st = s.last_status
        · rw [if_pos h] at h1
          exact absurd h1 (List.not_mem_nil e)
        · rw [if_neg h] at h1
          rw [List.mem_singleton.mp h1]
          exact stateChange_name now s.name s.job_id s.last_status st
      · exact ih (s.is_complete st now).1 e h2

/-- After polling, `_last_status` is the last polled status (or the
starting one when nothing was polled). -/
theorem pollAll_final_status (now : String) :
    ∀ (statuses : List HpcJobStatus) (s : AsyncHpcSubmitter),
      (pollAll s now statuses).1.last_status = statuses.getLastD s.last_status := by
  intro statuses
  induction statuses with
  | nil => intro s; rfl
  | cons st rest ih =>
      intro s
      rw [pollAll_cons, List.getLastD_cons]
      show (pollAll (s.is_complete st now).1 now rest).1.last_status = rest.getLastD st
      rw [ih, is_complete_state]

/-- If polling emitted nothing, every polled status equalled the starting
one, so `_last_status` is unchanged. -/
theorem pollAll_no_events_state (now : String) :
    ∀ (statuses : List HpcJobStatus) (s : AsyncHpcSubmitter),
      (pollAll s now statuses).2 = [] →
      (pollAll s now statuses).1.last_status = s.last_status := by
  intro statuses
  induction statuses with
  | nil => intro s _; rfl
  | cons st rest ih =>
      intro s h
      rw [pollAll_cons] at h ⊢
      simp only [List.append_eq_nil] at h
      obtain ⟨h1, h2⟩ := h
      have hst : st = s.last_status := by
        rw [is_complete_events] at h1
        by_cases hc : st = s.last_status
        · exact hc
        · rw [if_neg hc] at h1
          exact absurd h1 (by simp)
      have h3 := ih (s.is_complete st now).1 h2
      rw [h3, is_complete_state]
      exact hst

/-- The last event polling emits (when any) carries the final
`_last_status` label as its `new_state`. -/
theorem pollAll_tail_terminal (now : String) :
    ∀ (statuses : List HpcJobStatus) (s : AsyncHpcSubmitter)
      (e : StructuredLogEvent),
      (pollAll s now statuses).2.getLast? = some e →
      alistGet e.data "new_state" =
        some (JValue.str (pollAll s now statuses).1.last_status.value) := by
  intro statuses
  induction statuses with
  | nil =>
      intro s e h
      exact absurd h (by simp [pollAll])
  | cons st rest ih =>
      intro s e h
      rw [pollAll_cons] at h
      replace h : ((s.is_complete st now).2.1 ++
          (pollAll (s.is_complete st now).1 now rest).2).getLast? = some e := h
      rw [pollAll_cons]
      show alistGet e.data "new_state" =
        some (JValue.str (pollAll (s.is_complete st now).1 now
          rest).1.last_status.value)
      rw [is_complete_events] at h
      by_cases hc : st = s.last_status
      · rw [if_pos hc, List.nil_append] at h
        exact ih (s.is_complete st now).1 e h
      · rw [if_neg hc] at h
        by_cases hre : (pollAll (s.is_complete st now).1 now rest).2 = []
        · rw [hre] at h
          have he : e = hpcJobStateChangeEvent now s.name s.job_id s.last_status st := by
            simpa using h.symm
          subst he
          rw [stateChange_newState]
          have hfin := pollAll_no_events_state now rest (s.is_complete st now).1 hre
          rw [hfin, is_complete_state]
        · rw [List.getLast?_append_of_ne_nil _ hre] at h
          exact ih (s.is_complete st now).1 e h

/-- C3 counterexample: on a successful submission, `queue.submit` runs the
batch first, so the `hpc_job_assigned` event is emitted before the
`hpc_submit` event — the claimed order (`hpc_submit` before
`hpc_job_assigned`) is the reverse of what the code produces. -/
theorem submit_after_assigned_cex :
    (batchLifecycleEvents "submitter" (mkAsyncHpcSubmitter "batch_1") "jid"
        Status.GOOD 1 0 8 [HpcJobStatus.QUEUED, HpcJobStatus.COMPLETE] "now").map
        (fun e => e.name) =
      [EVENT_NAME_HPC_JOB_ASSIGNED, EVENT_NAME_HPC_SUBMIT,
       EVENT_NAME_HPC_JOB_STATE_CHANGE, EVENT_NAME_HPC_JOB_STATE_CHANGE] :=
  rfl

/-- C3 amended: for one batch, the emitted HPC event sequence is: on a
successful submit, first exactly one `hpc_job_assigned` (emitted while
`queue.submit` runs the batch), then exactly one `hpc_submit`, then zero
or more `hpc_job_state_change` events whose last one carries the final
polled status (terminal when polling ends COMPLETE/NONE); on a failed
submit, no events at all.  The claimed order is corrected:
`hpc_job_assigned` precedes the batch's `hpc_submit`. -/
theorem batch_event_order_contract (subName name jobId now : String)
    (batchSize numBlocked perNode : Nat) (statuses : List HpcJobStatus) :
    (batchLifecycleEvents subName (mkAsyncHpcSubmitter name) jobId Status.GOOD
        batchSize numBlocked perNode statuses now =
      hpcJobAssignedEvent now name jobId ::
        hpcSubmitEvent now subName batchSize numBlocked perNode ::
          (pollAll ((mkAsyncHpcSubmitter name).run jobId Status.GOOD now).1 now
            statuses).2) ∧
    (batchLifecycleEvents subName (mkAsyncHpcSubmitter name) jobId Status.ERROR
        batchSize numBlocked perNode statuses now = []) ∧
    (∀ e ∈ (pollAll ((mkAsyncHpcSubmitter name).run jobId Status.GOOD now).1 now
        statuses).2, e.name = EVENT_NAME_HPC_JOB_STATE_CHANGE) ∧
    (∀ e, (pollAll ((mkAsyncHpcSubmitter name).run jobId Status.GOOD now).1 now
        statuses).2.getLast? = some e →
      alistGet e.data "new_state" =
        some (JValue.str (statuses.getLastD HpcJobStatus.NONE).value)) := by
  refine ⟨rfl, rfl, pollAll_names now statuses _, ?_⟩
  intro e he
  have h1 := pollAll_tail_terminal now statuses
    ((mkAsyncHpcSubmitter name).run jobId Status.GOOD now).1 e he
  rw [pollAll_final_status] at h1
  exact h1

/-! ### C7: each job enters at most one batch -/

/-- Number of jobs carrying the name `n` in a job list. -/
def countName (n : String) (jobs : List Job) : Nat :=
  jobs.countP (fun j => j.name == n)

/-- Structural form of one packing round: the final batch together with
the jobs left on the ready list (those considered but not admitted, in
order, followed by those never considered because of the size break). -/
def packSplit (tryAddBlockedJobs : Bool) (perNodeBatchSize : Nat) :
    List Job → BatchJobs → BatchJobs × List Job
  | [], batch => (batch, [])
  | job :: rest, batch =>
    if batch.is_job_blocked job tryAddBlockedJobs then
      let r := packSplit tryAddBlockedJobs perNodeBatchSize rest batch
      (r.1, job :: r.2)
    else
      let batch' := batch.append job
      if perNodeBatchSize ≤ batch'.num_jobs then (batch', rest)
      else packSplit tryAddBlockedJobs perNodeBatchSize rest batch'

/-- The structural round conserves every name count: batch plus kept jobs
hold exactly the occurrences that batch plus input held. -/
theorem packSplit_count (tryAdd : Bool) (perNode : Nat) (n : String) :
    ∀ (jobs : List Job) (batch : BatchJobs),
      countName n (packSplit tryAdd perNode jobs batch).1.jobs +
          countName n (packSplit tryAdd perNode jobs batch).2 =
        countName n batch.jobs + countName n jobs := by
  intro jobs
  induction jobs with
  | nil =>
      intro batch
      simp [packSplit, countName]
  | cons job rest ih =>
      intro batch
      rw [packSplit]
      by_cases hb : batch.is_job_blocked job tryAdd
      · rw [if_pos hb]
        have h := ih batch
        simp only [countName, List.countP_cons] at h ⊢
        omega
      · rw [if_neg hb]
        by_cases hfull : perNode ≤ (batch.append job).num_jobs
        · rw [if_pos hfull]
          simp only [countName, BatchJobs.append, List.countP_append,
            List.countP_cons, List.countP_nil]
          omega
        · rw [if_neg hfull]
          have h := ih (batch.append job)
          simp only [countName, BatchJobs.append, List.countP_append,
            List.countP_cons, List.countP_nil] at h ⊢
          omega

/-- Length of `list.pop(i)` on a valid index. -/
theorem popAt_length (l : List Job) (k : Nat) (h : k < l.length) :
    (popAt l k).length = l.length - 1 := by
  simp only [popAt, List.length_append, List.length_take, List.length_drop]
  omega

/-- `pop` at an index inside the left part of an append acts on the left
part only. -/
theorem popAt_append_left (m tail : List Job) (k : Nat) (h : k < m.length) :
    popAt (m ++ tail) k = popAt m k ++ tail := by
  simp only [popAt]
  rw [List.take_append_of_le_length (le_of_lt h),
    List.drop_append_of_le_length h, List.append_assoc]

/-- `pop` exactly at the boundary of an append removes the head of the
right part. -/
theorem popAt_boundary (pre suf : List Job) (x : Job) :
    popAt (pre ++ x :: suf) pre.length = pre ++ suf := by
  simp only [popAt]
  rw [List.take_append_of_le_length (le_refl pre.length), List.take_length]
  have h : pre.length + 1 ≤ (pre ++ [x]).length := by
    simp
  have h2 : pre ++ x :: suf = (pre ++ [x]) ++ suf := by
    simp
  rw [h2, List.drop_append_of_le_length h]
  have h3 : List.drop (pre.length + 1) (pre ++ [x]) = [] := by
    apply List.drop_eq_nil_of_le
    simp
  rw [h3]
  simp

/-- A strictly ascending list of naturals strictly between `k` and `N`
has at most `N - k - 1` elements. -/
theorem asc_bounded_length (idxs : List Nat) (k N : Nat)
    (hsort : idxs.Pairwise (· < ·)) (hlo : ∀ x ∈ idxs, k < x)
    (hhi : ∀ x ∈ idxs, x < N) :
    idxs.length ≤ N - k - 1 := by
  have hnd : idxs.Nodup := hsort.imp ne_of_lt
  have hsub : idxs.toFinset ⊆ Finset.Ico (k + 1) N := by
    intro x hx
    rw [List.mem_toFinset] at hx
    exact Finset.mem_Ico.mpr ⟨hlo x hx, hhi x hx⟩
  have hcard := Finset.card_le_card hsub
  rw [List.toFinset_card_of_nodup hnd, Nat.card_Ico] at hcard
  omega

/-- Splitting a descending-pop sequence. -/
theorem popDesc_append (l : List Job) (id1 id2 : List Nat) :
    popDesc l (id1 ++ id2) = popDesc (popDesc l id2) id1 := by
  simp [popDesc, List.foldr_append]

/-- Valid descending pops shrink the list by one per index. -/
theorem popDesc_length (l : List Job) :
    ∀ (idxs : List Nat), idxs.Pairwise (· < ·) → (∀ x ∈ idxs, x < l.length) →
      (popDesc l idxs).length = l.length - idxs.length := by
  intro idxs
  induction idxs with
  | nil =>
      intro _ _
      rfl
  | cons k ks ih =>
      intro hsort hbound
      rcases List.pairwise_cons.mp hsort with ⟨hk, hks⟩
      have hbk : k < l.length := hbound k (List.mem_cons_self k ks)
      have hbks : ∀ x ∈ ks, x < l.length :=
        fun x hx => hbound x (List.mem_cons_of_mem k hx)
      have hlen := ih hks hbks
      have hcard := asc_bounded_length ks k l.length hks hk hbks
      show (popAt (popDesc l ks) k).length = l.length - (k :: ks).length
      have hklt : k < (popDesc l ks).length := by
        rw [hlen]
        omega
      rw [popAt_length _ _ hklt, hlen, List.length_cons]
      omega

/-- Descending pops at indices inside the left part of an append act on
the left part only. -/
theorem popDesc_append_left (tail : List Job) :
    ∀ (idxs : List Nat) (pre : List Job), idxs.Pairwise (· < ·) →
      (∀ x ∈ idxs, x < pre.length) →
      popDesc (pre ++ tail) idxs = popDesc pre idxs ++ tail := by
  intro idxs
  induction idxs with
  | nil =>
      intro pre _ _
      rfl
  | cons k ks ih =>
      intro pre hsort hbound
      rcases List.pairwise_cons.mp hsort with ⟨hk, hks⟩
      have hbk : k < pre.length := hbound k (List.mem_cons_self k ks)
      have hbks : ∀ x ∈ ks, x < pre.length :=
        fun x hx => hbound x (List.mem_cons_of_mem k hx)
      show popAt (popDesc (pre ++ tail) ks) k = popAt (popDesc pre ks) k ++ tail
      rw [ih pre hks hbks]
      have hlen := popDesc_length pre ks hks hbks
      have hcard := asc_bounded_length ks k pre.length hks hk hbks
      exact popAt_append_left _ tail k (by rw [hlen]; omega)

/-- The imperative loop (ascending index recording plus descending pops)
computes exactly the structural split: the same batch, and popping the
recorded indices from the ready list leaves exactly the split's kept
jobs. -/
theorem packLoop_split (tryAdd : Bool) (perNode : Nat) :
    ∀ (rest : List Job) (i : Nat) (batch : BatchJobs) (toPop : List Nat)
      (nb : Nat) (pre : List Job),
      pre.length = i →
      toPop.Pairwise (· < ·) →
      (∀ k ∈ toPop, k < i) →
      (packLoop tryAdd perNode rest i batch toPop nb).batch =
          (packSplit tryAdd perNode rest batch).1 ∧
      popDesc (pre ++ rest)
          (packLoop tryAdd perNode rest i batch toPop nb).jobsToPop =
        popDesc pre toPop ++ (packSplit tryAdd perNode rest batch).2 := by
  intro rest
  induction rest with
  | nil =>
      intro i batch toPop nb pre hlen hsort hbound
      refine ⟨rfl, ?_⟩
      show popDesc (pre ++ []) toPop = popDesc pre toPop ++ []
      rw [List.append_nil, List.append_nil]
  | cons job rest ih =>
      intro i batch toPop nb pre hlen hsort hbound
      rw [packLoop, packSplit]
      by_cases hb : batch.is_job_blocked job tryAdd
      · rw [if_pos hb, if_pos hb]
        show (packLoop tryAdd perNode rest (i + 1) batch toPop (nb + 1)).batch =
            (packSplit tryAdd perNode rest batch).1 ∧
          popDesc (pre ++ job :: rest)
              (packLoop tryAdd perNode rest (i + 1) batch toPop (nb + 1)).jobsToPop =
            popDesc pre toPop ++ (job :: (packSplit tryAdd perNode rest batch).2)
        have hbound' : ∀ k ∈ toPop, k < i + 1 :=
          fun k hk => Nat.lt_succ_of_lt (hbound k hk)
        have hlen' : (pre ++ [job]).length = i + 1 := by
          simp [hlen]
        obtain ⟨h1, h2⟩ := ih (i + 1) batch toPop (nb + 1) (pre ++ [job]) hlen' hsort hbound'
        refine ⟨h1, ?_⟩
        rw [List.append_assoc, List.singleton_append] at h2
        rw [h2]
        have h3 : popDesc (pre ++ [job]) toPop = popDesc pre toPop ++ [job] :=
          popDesc_append_left [job] toPop pre hsort (by rw [hlen]; exact hbound)
        rw [h3, List.append_assoc, List.singleton_append]
      · rw [if_neg hb, if_neg hb]
        by_cases hfull : perNode ≤ (batch.append job).num_jobs
        · rw [if_pos hfull, if_pos hfull]
          refine ⟨rfl, ?_⟩
          show popDesc (pre ++ job :: rest) (toPop ++ [i]) =
            popDesc pre toPop ++ rest
          rw [popDesc_append]
          have hb0 : popDesc (pre ++ job :: rest) [i] = pre ++ rest := by
            show popAt (pre ++ job :: rest) i = pre ++ rest
            rw [← hlen]
            exact popAt_boundary pre rest job
          rw [hb0]
          exact popDesc_append_left rest toPop pre hsort (by rw [hlen]; exact hbound)
        · rw [if_neg hfull, if_neg hfull]
          show (packLoop tryAdd perNode rest (i + 1) (batch.append job)
                (toPop ++ [i]) nb).batch =
              (packSplit tryAdd perNode rest (batch.append job)).1 ∧
            popDesc (pre ++ job :: rest)
                (packLoop tryAdd perNode rest (i + 1) (batch.append job)
                  (toPop ++ [i]) nb).jobsToPop =
              popDesc pre toPop ++ (packSplit tryAdd perNode rest (batch.append job)).2
          have hsort' : (toPop ++ [i]).Pairwise (· < ·) := by
            rw [List.pairwise_append]
            refine ⟨hsort, List.pairwise_singleton _ _, ?_⟩
            intro a ha b hb2
            rw [List.mem_singleton.mp hb2]
            exact hbound a ha
          have hbound' : ∀ k ∈ toPop ++ [i], k < i + 1 := by
            intro k hk
            rcases List.mem_append.mp hk with h1 | h1
            · exact Nat.lt_succ_of_lt (hbound k h1)
            · rw [List.mem_singleton.mp h1]
              exact Nat.lt_succ_self i
          have hlen' : (pre ++ [job]).length = i + 1 := by
            simp [hlen]
          obtain ⟨h1, h2⟩ := ih (i + 1) (batch.append job) (toPop ++ [i]) nb
            (pre ++ [job]) hlen' hsort' hbound'
          refine ⟨h1, ?_⟩
          rw [List.append_assoc, List.singleton_append] at h2
          rw [h2]
          have h3 : popDesc (pre ++ [job]) (toPop ++ [i]) = popDesc pre toPop := by
            rw [popDesc_append]
            have hb0 : popDesc (pre ++ [job]) [i] = pre := by
              show popAt (pre ++ [job]) i = pre
              rw [← hlen]
              have h4 := popAt_boundary pre [] job
              rw [List.append_nil] at h4
              exact h4
            rw [hb0]
          rw [h3]

/-- The dependency update rewrites `blocked_by` sets only, never names. -/
theorem countName_update (n : String) (completed : List String) (jobs : List Job) :
    countName n (updateCompletedJobs completed jobs) = countName n jobs := by
  simp only [countName, updateCompletedJobs, List.countP_map]
  rfl

/-- One run-loop round conserves every name count between the ready list
and the submitted batch. -/
theorem hpcRunRound_count (completed : List String) (tryAdd : Bool) (perNode : Nat)
    (jobs : List Job) (n : String) :
    countName n (hpcRunRound completed tryAdd perNode jobs).1 +
      ((optBatch (hpcRunRound completed tryAdd perNode jobs).2).map
        (countName n)).sum = countName n jobs := by
  have hupd := countName_update n completed jobs
  have hsplit := packSplit_count tryAdd perNode n (updateCompletedJobs completed jobs)
    ⟨[], []⟩
  obtain ⟨hbatch, hpop⟩ := packLoop_split tryAdd perNode
    (updateCompletedJobs completed jobs) 0 ⟨[], []⟩ [] 0 []
    rfl List.Pairwise.nil (fun k hk => absurd hk (List.not_mem_nil k))
  rw [List.nil_append] at hpop
  simp only [hpcRunRound]
  by_cases hpos : 0 < (packRound tryAdd perNode
      (updateCompletedJobs completed jobs)).batch.num_jobs
  · rw [if_pos hpos]
    show countName n (popDesc (updateCompletedJobs completed jobs)
          (packRound tryAdd perNode (updateCompletedJobs completed jobs)).jobsToPop) +
        ((optBatch (some (packRound tryAdd perNode
          (updateCompletedJobs completed jobs)).batch.jobs)).map (countName n)).sum =
      countName n jobs
    simp only [optBatch, List.map_cons, List.map_nil, List.sum_cons, List.sum_nil,
      Nat.add_zero]
    have hpop' : popDesc (updateCompletedJobs completed jobs)
        (packRound tryAdd perNode (updateCompletedJobs completed jobs)).jobsToPop =
        (packSplit tryAdd perNode (updateCompletedJobs completed jobs) ⟨[], []⟩).2 := by
      rw [packRound, hpop]
      rfl
    have hbatch' : (packRound tryAdd perNode (updateCompletedJobs completed jobs)).batch =
        (packSplit tryAdd perNode (updateCompletedJobs completed jobs) ⟨[], []⟩).1 := by
      rw [packRound]
      exact hbatch
    rw [hpop', hbatch']
    rw [show countName n (⟨[], []⟩ : BatchJobs).jobs = 0 from rfl] at hsplit
    omega
  · rw [if_neg hpos]
    show countName n (updateCompletedJobs completed jobs) +
      ((optBatch none).map (countName n)).sum = countName n jobs
    simp only [optBatch, List.map_nil, List.sum_nil, Nat.add_zero]
    exact hupd

/-- The whole run conserves every name count: remaining ready jobs plus
all submitted batches hold exactly the original occurrences. -/
theorem hpcRunRounds_count (completedAt : Nat → List String) (tryAdd : Bool)
    (perNode : Nat) (n : String) :
    ∀ (fuel round : Nat) (jobs : List Job),
      countName n (hpcRunRounds completedAt tryAdd perNode fuel round jobs).1 +
        ((hpcRunRounds completedAt tryAdd perNode fuel round jobs).2.map
          (countName n)).sum = countName n jobs := by
  intro fuel
  induction fuel with
  | zero =>
      intro round jobs
      simp [hpcRunRounds]
  | succ fuel ih =>
      intro round jobs
      rw [hpcRunRounds]
      by_cases hnil : jobs = []
      · rw [if_pos hnil]
        simp
      · rw [if_neg hnil]
        have hrnd := hpcRunRound_count (completedAt round) tryAdd perNode jobs n
        have hih := ih (round + 1)
          (hpcRunRound (completedAt round) tryAdd perNode jobs).1
        show countName n (hpcRunRounds completedAt tryAdd perNode fuel (round + 1)
              (hpcRunRound (completedAt round) tryAdd perNode jobs).1).1 +
            ((optBatch (hpcRunRound (completedAt round) tryAdd perNode jobs).2 ++
              (hpcRunRounds completedAt tryAdd perNode fuel (round + 1)
                (hpcRunRound (completedAt round) tryAdd perNode jobs).1).2).map
              (countName n)).sum = countName n jobs
        rw [List.map_append, List.sum_append]
        rcases hcase : (hpcRunRound (completedAt round) tryAdd perNode jobs).2 with _ | b
        · rw [hcase] at hrnd
          simp only [optBatch, List.map_nil, List.sum_nil] at hrnd ⊢
          omega
        · rw [hcase] at hrnd
          simp only [optBatch, List.map_cons, List.map_nil, List.sum_cons,
            List.sum_nil] at hrnd ⊢
          omega

/-- Batches with at least one occurrence of a name: when the total count
is at most one, at most one batch holds the name. -/
theorem countP_pos_le_one (n : String) :
    ∀ (bs : List (List Job)), (bs.map (countName n)).sum ≤ 1 →
      bs.countP (fun b => 0 < countName n b) ≤ 1 := by
  intro bs
  induction bs with
  | nil =>
      intro _
      simp
  | cons b rest ih =>
      intro h
      rw [List.map_cons, List.sum_cons] at h
      rw [List.countP_cons]
      by_cases hb : 0 < countName n b
      · have hrest : (rest.map (countName n)).sum = 0 := by
          omega
        have hzero : rest.countP (fun b => 0 < countName n b) = 0 := by
          rw [List.countP_eq_zero]
          intro x hx
          have hx0 : countName n x = 0 := by
            have hmem : countName n x ∈ rest.map (countName n) :=
              List.mem_map_of_mem (countName n) hx
            exact (List.sum_eq_zero_iff.mp hrest) _ hmem
          simp [hx0]
        rw [hzero]
        simp [hb]
      · have := ih (by omega)
        simp only [hb]
        simpa using this

/-- C7: in every run, a job name occurring at most once in the
configuration enters at most one submitted batch.  This rests on exact
conservation: each submitted batch's recorded indices are removed from the
ready list in descending order, deleting exactly the admitted jobs, so the
remaining ready jobs plus all submitted batches always hold exactly the
original occurrences of every name. -/
theorem job_enters_at_most_one_batch (completedAt : Nat → List String)
    (tryAdd : Bool) (perNode : Nat) (fuel round : Nat) (jobs : List Job)
    (n : String) (h : countName n jobs ≤ 1) :
    (hpcRunRounds completedAt tryAdd perNode fuel round jobs).2.countP
        (fun b => 0 < countName n b) ≤ 1 ∧
    countName n (hpcRunRounds completedAt tryAdd perNode fuel round jobs).1 +
      ((hpcRunRounds completedAt tryAdd perNode fuel round jobs).2.map
        (countName n)).sum = countName n jobs := by
  have hc := hpcRunRounds_count completedAt tryAdd perNode n fuel round jobs
  refine ⟨?_, hc⟩
  exact countP_pos_le_one n _ (by omega)

/-- C7 witness: the at-most-one-batch theorem applied to a concrete
two-job run. -/
theorem job_enters_at_most_one_batch_witness :
    (hpcRunRounds (fun _ => []) false 8 4 0 cJobs).2.countP
        (fun b => 0 < countName "a" b) ≤ 1 ∧
    countName "a" (hpcRunRounds (fun _ => []) false 8 4 0 cJobs).1 +
      ((hpcRunRounds (fun _ => []) false 8 4 0 cJobs).2.map
        (countName "a")).sum = countName "a" cJobs :=
  job_enters_at_most_one_batch (fun _ => []) false 8 4 0 cJobs "a" (by decide)

end Jade
